import Mathlib

/-!
Verification development for `src/crispy/text/mktables.py` of the
contour-terminal/contour repository: the UCD (Unicode Character Database)
table compiler.  The Python script parses UCD text files, aggregates
codepoint ranges per property, sorts them, and emits C++ tables together
with two binary-search primitives (`contains` and `search`, written out
verbatim by `file_header`).

The development shallow-embeds:
  * the two emitted C++ binary-search primitives (`contains` over signed
    `int` indices, `search` over unsigned `size_t` indices),
  * the regular-expression line matchers (`singleValueRE`, `rangeValueRE`
    and the header-marker patterns) as deterministic character-list
    parsers (the adjacent character classes of those regexes are pairwise
    disjoint, so greedy matching never backtracks and the deterministic
    parser computes exactly the regex match),
  * the per-file aggregation loops (Python `dict`s become insertion-ordered
    association lists, `dict[key]` access that can raise `KeyError` becomes
    an `Option`),
  * the sorting step (`list.sort(key=lambda a: a['start'])`, Python's
    stable sort, becomes insertion sort by the same key, which computes
    the unique stable ascending reordering),
  * the emission of the generated header/implementation texts, and the
    top-level `generate` driver.

Machine integers: `char32_t` codepoints are `Nat` (no arithmetic is
performed on them).  The `int` indices of `contains` are `Int`; the values
reached from any table of fewer than 2^30 entries all lie far inside the
`int` range, so no wrap is modelled there.  The `size_t` indices of
`search` wrap modulo 2^64, which is load-bearing: `b = size() - 1` at
size 0 and `b = i - 1` at `i = 0` wrap to 2^64 - 1.  Array accesses are
checked: an out-of-bounds access (undefined behaviour in the C++) makes
the modelled function return `none`.
-/

namespace Mktables

/-- Width of `size_t` on the 64-bit targets the generated code is built
for: all `size_t` arithmetic in the modelled `search` is taken mod `W`. -/
def W : Nat := 2 ^ 64

/-- The emitted C++ `struct Interval { char32_t from; char32_t to; }`
(`from` is a Lean keyword, hence the field names `fromCp`/`toCp`). -/
structure Interval where
  fromCp : Nat
  toCp : Nat
deriving Repr, DecidableEq

/-- The emitted C++ `template <typename T> struct Prop { Interval interval;
T property; }` (`Prop` itself is reserved in Lean). -/
structure Prop' (T : Type) where
  interval : Interval
  property : T
deriving Repr, DecidableEq

/-- `_ranges[i]` with a signed index `i : Int`: a negative index or an
index at or beyond the array size is undefined behaviour, modelled as
`none`. -/
def getI (ranges : List Interval) (i : Int) : Option Interval :=
  if 0 ≤ i then ranges[i.toNat]? else none

/-- Loop of the emitted `contains` (mktables.py lines 80-97):

    int a = 0;
    int b = _ranges.size() - 1;
    while (a < b) {
        auto const i = (b + a) / 2;
        auto const& I = _ranges[i];
        if (I.to < _codepoint) a = i + 1;
        else if (I.from > _codepoint) b = i - 1;
        else return true;
    }
    return a == b && _ranges[a].from <= _codepoint && _codepoint <= _ranges[a].to;

The `while` loop is modelled with a fuel parameter; fuel exhaustion and
out-of-bounds access both give `none`.  `contains_total_in_bounds` below
proves the top-level call never returns `none`, i.e. the fuel given by
`containsImpl` suffices and every array access is in bounds.  In every
state the loop reaches `b + a` is nonnegative, where Lean's integer
division agrees with the C++ truncating division. -/
def containsGo (ranges : List Interval) (cp : Nat) (a b : Int) : Nat → Option Bool
  | 0 => none
  | fuel + 1 =>
    if a < b then
      match getI ranges ((b + a) / 2) with
      | none => none
      | some I =>
        if I.toCp < cp then containsGo ranges cp ((b + a) / 2 + 1) b fuel
        else if cp < I.fromCp then containsGo ranges cp a ((b + a) / 2 - 1) fuel
        else some true
    else
      if a = b then
        match getI ranges a with
        | none => none
        | some I => some (decide (I.fromCp ≤ cp ∧ cp ≤ I.toCp))
      else some false

/-- The emitted boolean `contains` primitive.  `int b = _ranges.size() - 1`
is `(length : Int) - 1` (for an empty array the C++ converts `SIZE_MAX`
back to `-1`).  The fuel `length + 1` strictly exceeds the initial value
of `b - a`, which decreases on every iteration. -/
def containsImpl (ranges : List Interval) (cp : Nat) : Option Bool :=
  containsGo ranges cp 0 ((ranges.length : Int) - 1) (ranges.length + 1)

/-- Loop of the emitted value-returning `search` (mktables.py lines
105-124):

    size_t a = 0;
    size_t b = _ranges.size() - 1;
    while (a < b) {
        auto const i = (b + a) / 2;
        auto const& I = _ranges[i];
        if (I.interval.to < _codepoint) a = i + 1;
        else if (I.interval.from > _codepoint) b = i - 1;
        else return I.property;
    }
    if (a == b && _ranges[a].interval.from <= _codepoint && _codepoint <= _ranges[a].interval.to)
        return _ranges[a].property;
    return std::nullopt;

All index arithmetic is unsigned `size_t`, i.e. mod `W`; in particular
`b = i - 1` at `i = 0` wraps to `W - 1`.  Result `none` is undefined
behaviour (out-of-bounds `_ranges[i]`, or fuel exhaustion);
`some none` is `std::nullopt`; `some (some v)` is a found value. -/
def searchGo {T : Type} (ranges : List (Prop' T)) (cp : Nat) (a b : Nat) :
    Nat → Option (Option T)
  | 0 => none
  | fuel + 1 =>
    if a < b then
      let i := (b + a) % W / 2
      match ranges[i]? with
      | none => none
      | some I =>
        if I.interval.toCp < cp then searchGo ranges cp ((i + 1) % W) b fuel
        else if cp < I.interval.fromCp then searchGo ranges cp a ((i + (W - 1)) % W) fuel
        else some (some I.property)
    else
      if a = b then
        match ranges[a]? with
        | none => none
        | some I =>
          if I.interval.fromCp ≤ cp ∧ cp ≤ I.interval.toCp then some (some I.property)
          else some none
      else some none

/-- The emitted value-returning `search` primitive.  `size_t b =
_ranges.size() - 1` is `(length + (W - 1)) % W`, which is `length - 1`
for a non-empty array and `W - 1` for an empty one.  The fuel `W` exceeds
any number of iterations the loop can perform before returning or going
out of bounds. -/
def searchImpl {T : Type} (ranges : List (Prop' T)) (cp : Nat) : Option (Option T) :=
  searchGo ranges cp 0 ((ranges.length + (W - 1)) % W) W

/-- The specification's reference semantics: a linear scan over the table
testing `start <= Q <= end`, returning the value of the first entry whose
interval contains the query (unique when the table is disjoint). -/
def linearSearch {T : Type} (ranges : List (Prop' T)) (cp : Nat) : Option T :=
  (ranges.find? (fun I => I.interval.fromCp ≤ cp && cp ≤ I.interval.toCp)).map
    (fun I => I.property)

/-- Reference linear scan for the boolean form. -/
def linearContains (ranges : List Interval) (cp : Nat) : Bool :=
  ranges.any (fun I => I.fromCp ≤ cp && cp ≤ I.toCp)

/-- The claims' premise on tables, decidably: every interval is non-empty
and each interval ends strictly before the next begins (sorted and
pairwise disjoint). -/
def sortedDisjoint {T : Type} : List (Prop' T) → Bool
  | [] => true
  | [I] => I.interval.fromCp ≤ I.interval.toCp
  | I :: J :: rest =>
    I.interval.fromCp ≤ I.interval.toCp && I.interval.toCp < J.interval.fromCp &&
      sortedDisjoint (J :: rest)

/-- A parsed record of `process_core_props` /
`process_derived_general_category`: the Python dict
`{'start': ..., 'end': ..., 'comment': ...}` (`end` is a Lean keyword,
hence `stop`). -/
structure CoreEntry where
  start : Nat
  stop : Nat
  comment : String
deriving Repr, DecidableEq

/-- A parsed record carrying its property token: the Python dict
`{'start': ..., 'end': ..., 'property': ..., 'comment': ...}`. -/
structure RangeEntry where
  start : Nat
  stop : Nat
  property : String
  comment : String
deriving Repr, DecidableEq

/-- The normalizer `props[key].sort(key = lambda a: a['start'])`
(mktables.py lines 162-164, 221-223, 303-305 and 416): Python's
`list.sort` is stable, and the unique stable ascending-by-key reordering
of a list is computed by insertion sort that inserts before the first
strictly greater key. -/
def sortByStart {α : Type} (key : α → Nat) (l : List α) : List α :=
  List.insertionSort (fun x y => key x ≤ key y) l

theorem orderedInsert_filter_eq {α : Type} (key : α → Nat) (s : Nat) (x : α)
    (l : List α) (hx : key x = s) :
    (List.orderedInsert (fun a b => key a ≤ key b) x l).filter (fun e => key e == s)
      = x :: l.filter (fun e => key e == s) := by
  induction l with
  | nil => simp [List.orderedInsert, hx]
  | cons y ys ih =>
    by_cases hle : key x ≤ key y
    · have hle2 : s ≤ key y := hx ▸ hle
      simp [List.orderedInsert, hle, hle2, hx]
    · have hy : (key y == s) = false := by
        simp only [beq_eq_false_iff_ne]
        omega
      simp [List.orderedInsert, hle, List.filter_cons, hy, ih]

theorem orderedInsert_filter_ne {α : Type} (key : α → Nat) (s : Nat) (x : α)
    (l : List α) (hx : key x ≠ s) :
    (List.orderedInsert (fun a b => key a ≤ key b) x l).filter (fun e => key e == s)
      = l.filter (fun e => key e == s) := by
  induction l with
  | nil => simp [List.orderedInsert, hx]
  | cons y ys ih =>
    by_cases hle : key x ≤ key y
    · simp [List.orderedInsert, hle, hx]
    · simp [List.orderedInsert, hle, List.filter_cons, ih]

/-- Claim C8: the normalizer returns the entry list sorted ascending by
`start`, it keeps exactly the input entries (a permutation), and the sort
is stable: for every start value `s`, the subsequence of entries whose
start equals `s` is exactly the input's subsequence, in input order. -/
theorem normalizer_sorted_stable {α : Type} (key : α → Nat) (l : List α) :
    List.Sorted (fun x y => key x ≤ key y) (sortByStart key l) ∧
    (sortByStart key l).Perm l ∧
    ∀ s : Nat, (sortByStart key l).filter (fun e => key e == s)
      = l.filter (fun e => key e == s) := by
  refine ⟨?_, List.perm_insertionSort _ l, ?_⟩
  · haveI : IsTotal α (fun x y => key x ≤ key y) := ⟨fun a b => Nat.le_total (key a) (key b)⟩
    haveI : IsTrans α (fun x y => key x ≤ key y) :=
      ⟨fun _ _ _ hab hbc => Nat.le_trans hab hbc⟩
    exact List.sorted_insertionSort _ l
  · intro s
    induction l with
    | nil => simp [sortByStart]
    | cons x xs ih =>
      show (List.orderedInsert _ x (List.insertionSort _ xs)).filter _ = _
      by_cases hx : key x = s
      · rw [orderedInsert_filter_eq key s x _ hx, List.filter_cons]
        simp only [hx, beq_self_eq_true, if_pos]
        exact congrArg _ ih
      · rw [orderedInsert_filter_ne key s x _ hx, List.filter_cons]
        have hkx : (key x == s) = false := by simp [hx]
        simp only [hkx, Bool.false_eq_true, if_false]
        exact ih

/-- Python `\s` (ASCII range; the UCD files the script parses are ASCII).
-/
def isSpaceC (c : Char) : Bool :=
  c = ' ' || c = '\t' || c = '\n' || c = '\x0d' || c = '\x0b' || c = '\x0c'

/-- Python `\w` (ASCII range). -/
def isWordChar (c : Char) : Bool :=
  ('a' ≤ c && c ≤ 'z') || ('A' ≤ c && c ≤ 'Z') || ('0' ≤ c && c ≤ '9') || c = '_'

/-- The character class `[0-9A-F]` of `singleValueRE` / `rangeValueRE`
(uppercase hex only, exactly as in the regex). -/
def isHexDigit (c : Char) : Bool :=
  ('0' ≤ c && c ≤ '9') || ('A' ≤ c && c ≤ 'F')

/-- Value of one `[0-9A-F]` digit. -/
def hexVal (c : Char) : Nat :=
  if c ≤ '9' then c.toNat - 48 else c.toNat - 55

/-- `int(group, 16)` on a `[0-9A-F]+` group. -/
def hexToNat (ds : List Char) : Nat :=
  ds.foldl (fun acc c => 16 * acc + hexVal c) 0

/-- The common tail `\s*;\s*(\w+)\s*#\s*(.*)$` of `singleValueRE` and
`rangeValueRE` (mktables.py lines 35-36), as a deterministic parser over
the line's characters: every adjacent pair of character classes in the
regex is disjoint (`\s` vs `;`, `\s` vs `\w`, `\w` vs `#`, `\s` vs `#`),
so the greedy regex engine never backtracks and longest-munch scanning
computes the match exactly.  `$` matches at the end of the line or just
before a trailing newline; lines produced by `readline` contain no
interior newline.  Returns the `\w+` group and the `(.*)` group. -/
def matchSemiTail (cs : List Char) : Option (List Char × List Char) :=
  match cs.dropWhile isSpaceC with
  | ';' :: r1 =>
    let r2 := r1.dropWhile isSpaceC
    let w := r2.takeWhile isWordChar
    let r3 := r2.dropWhile isWordChar
    if w.isEmpty then none
    else
      match r3.dropWhile isSpaceC with
      | '#' :: r4 =>
        let r5 := r4.dropWhile isSpaceC
        let comment := r5.takeWhile (fun c => c != '\n')
        let rest := r5.dropWhile (fun c => c != '\n')
        if rest = [] ∨ rest = ['\n'] then some (w, comment) else none
      | _ => none
  | _ => none

/-- `singleValueRE.match(line)`: the regex
`([0-9A-F]+)\s*;\s*(\w+)\s*#\s*(.*)$` applied with `re.match` (anchored
at the start of the line).  Returns `(int(group(1),16), group(2),
group(3))`. -/
def matchSingleValue (cs : List Char) : Option (Nat × String × String) :=
  let hex := cs.takeWhile isHexDigit
  if hex.isEmpty then none
  else
    match matchSemiTail (cs.dropWhile isHexDigit) with
    | some (w, comment) => some (hexToNat hex, String.mk w, String.mk comment)
    | none => none

/-- `rangeValueRE.match(line)`: the regex
`([0-9A-F]+)\.\.([0-9A-F]+)\s*;\s*(\w+)\s*#\s*(.*)$` applied with
`re.match`. -/
def matchRangeValue (cs : List Char) : Option (Nat × Nat × String × String) :=
  let h1 := cs.takeWhile isHexDigit
  if h1.isEmpty then none
  else
    match cs.dropWhile isHexDigit with
    | '.' :: '.' :: r1 =>
      let h2 := r1.takeWhile isHexDigit
      if h2.isEmpty then none
      else
        match matchSemiTail (r1.dropWhile isHexDigit) with
        | some (w, comment) => some (hexToNat h1, hexToNat h2, String.mk w, String.mk comment)
        | none => none
    | _ => none

/-- `UCDGenerator.parse_range` (mktables.py lines 271-285): try
`singleValueRE`, then `rangeValueRE`, else `None`. -/
def parse_range (line : List Char) : Option RangeEntry :=
  match matchSingleValue line with
  | some (code, prop, comment) => some ⟨code, code, prop, comment⟩
  | none =>
    match matchRangeValue line with
    | some (s, e, prop, comment) => some ⟨s, e, prop, comment⟩
    | none => none

theorem mem_of_mem_dropWhile {c : Char} {p : Char → Bool} {l : List Char}
    (h : c ∈ l.dropWhile p) : c ∈ l :=
  List.Sublist.mem h (List.dropWhile_sublist p)

/-- The common regex tail only matches when a literal `#` is present. -/
theorem matchSemiTail_hash (cs : List Char) (r : List Char × List Char)
    (h : matchSemiTail cs = some r) : '#' ∈ cs := by
  simp only [matchSemiTail] at h
  split at h
  next r1 heq =>
    split at h
    · exact absurd h (by simp)
    · split at h
      next r4 heq2 =>
        have h4 : '#' ∈ ((r1.dropWhile isSpaceC).dropWhile isWordChar).dropWhile isSpaceC := by
          rw [heq2]; exact List.mem_cons_self _ _
        have h3 : '#' ∈ r1 :=
          mem_of_mem_dropWhile (mem_of_mem_dropWhile (mem_of_mem_dropWhile h4))
        have h5 : '#' ∈ cs.dropWhile isSpaceC := by
          rw [heq]; exact List.mem_cons_of_mem _ h3
        exact mem_of_mem_dropWhile h5
      next => exact absurd h (by simp)
  next => exact absurd h (by simp)

/-- `parse_range` only produces a record when the line contains `#`. -/
theorem parse_range_hash (cs : List Char) (r : RangeEntry)
    (h : parse_range cs = some r) : '#' ∈ cs := by
  simp only [parse_range] at h
  split at h
  next code prop comment heq =>
    simp only [matchSingleValue] at heq
    split at heq
    · exact absurd heq (by simp)
    · split at heq
      next w comment' heq2 =>
        exact mem_of_mem_dropWhile (matchSemiTail_hash _ _ heq2)
      next => exact absurd heq (by simp)
  next heq1 =>
    split at h
    next s e prop comment heq =>
      simp only [matchRangeValue] at heq
      split at heq
      · exact absurd heq (by simp)
      · split at heq
        next r1 heq2 =>
          split at heq
          · exact absurd heq (by simp)
          · split at heq
            next w comment' heq3 =>
              have h4 : '#' ∈ r1 := mem_of_mem_dropWhile (matchSemiTail_hash _ _ heq3)
              have h5 : '#' ∈ cs.dropWhile isHexDigit := by
                rw [heq2]
                exact List.mem_cons_of_mem _ (List.mem_cons_of_mem _ h4)
              exact mem_of_mem_dropWhile h5
            next => exact absurd heq (by simp)
        next => exact absurd heq (by simp)
    next => exact absurd h (by simp)

/-- Claim C10: a data line lacking the trailing `#` comment delimiter
matches neither line grammar.  For every line of the form
`<hex> ; <token>` or `<hex>..<hex> ; <token>` (arbitrary `\s*` padding
around the `;`) with no `#` character after the token, both regexes fail
to match and `parse_range` silently drops the line. -/
theorem parse_requires_comment_delimiter
    (hex1 hex2 tok sp1 sp2 : List Char)
    (hh1 : ∀ c ∈ hex1, isHexDigit c = true)
    (hh2 : ∀ c ∈ hex2, isHexDigit c = true)
    (ht : ∀ c ∈ tok, isWordChar c = true)
    (hs1 : ∀ c ∈ sp1, isSpaceC c = true)
    (hs2 : ∀ c ∈ sp2, isSpaceC c = true) :
    parse_range (hex1 ++ sp1 ++ [';'] ++ sp2 ++ tok) = none ∧
    parse_range (hex1 ++ ('.' :: '.' :: hex2) ++ sp1 ++ [';'] ++ sp2 ++ tok) = none := by
  have key : ∀ cs : List Char, '#' ∉ cs → parse_range cs = none := by
    intro cs hno
    cases hp : parse_range cs with
    | none => rfl
    | some r => exact absurd (parse_range_hash cs r hp) hno
  constructor <;> apply key <;> intro hmem <;>
    simp only [List.mem_append, List.mem_cons, List.mem_singleton, List.not_mem_nil,
      or_false, false_or] at hmem <;>
    casesm* _ ∨ _ <;>
    first
      | exact absurd (hh1 _ ‹ '#' ∈ hex1›) (by decide)
      | exact absurd (hh2 _ ‹ '#' ∈ hex2›) (by decide)
      | exact absurd (ht _ ‹ '#' ∈ tok›) (by decide)
      | exact absurd (hs1 _ ‹ '#' ∈ sp1›) (by decide)
      | exact absurd (hs2 _ ‹ '#' ∈ sp2›) (by decide)
      | exact absurd ‹ '#' = ';'› (by decide)
      | exact absurd ‹ '#' = '.'› (by decide)

/-- Witness for `parse_requires_comment_delimiter` at the concrete line
`0041 ; Alpha` (and its range form `0041..005A ; Alpha`). -/
theorem parse_requires_comment_delimiter_witness :
    (∀ c ∈ "0041".data, isHexDigit c = true) ∧
    (∀ c ∈ "005A".data, isHexDigit c = true) ∧
    (∀ c ∈ "Alpha".data, isWordChar c = true) ∧
    (∀ c ∈ " ".data, isSpaceC c = true) ∧
    parse_range ("0041".data ++ " ".data ++ [';'] ++ " ".data ++ "Alpha".data) = none ∧
    parse_range ("0041".data ++ ('.' :: '.' :: "005A".data) ++ " ".data ++ [';'] ++
      " ".data ++ "Alpha".data) = none :=
  ⟨by decide, by decide, by decide, by decide,
    (parse_requires_comment_delimiter "0041".data "005A".data "Alpha".data " ".data " ".data
      (by decide) (by decide) (by decide) (by decide) (by decide)).1,
    (parse_requires_comment_delimiter "0041".data "005A".data "Alpha".data " ".data " ".data
      (by decide) (by decide) (by decide) (by decide) (by decide)).2⟩

/-- Strip an expected literal prefix, as the regex engine does for the
literal part of a pattern. -/
def stripPrefixC : List Char → List Char → Option (List Char)
  | [], cs => some cs
  | _, [] => none
  | p :: ps, c :: cs => if c = p then stripPrefixC ps cs else none

/-- The sub-table header marker of `process_props` (mktables.py line 193):
`re.compile('^#\s*{}:\s*(\w+)$'.format(prop_key))`.  Adjacent classes are
again disjoint, so the deterministic scan equals the regex match. -/
def matchPropsHeader (key : List Char) (cs : List Char) : Option String :=
  match cs with
  | '#' :: r1 =>
    match stripPrefixC key (r1.dropWhile isSpaceC) with
    | some (':' :: r3) =>
      let r4 := r3.dropWhile isSpaceC
      let w := r4.takeWhile isWordChar
      let r5 := r4.dropWhile isWordChar
      if w.isEmpty then none
      else if r5 = [] ∨ r5 = ['\n'] then some (String.mk w) else none
    | _ => none
  | _ => none

/-- The sub-table header marker of `process_derived_general_category`
(mktables.py line 333): `re.compile('^#\s*General_Category=(\w+)$')`. -/
def matchGCHeader (cs : List Char) : Option String :=
  match cs with
  | '#' :: r1 =>
    match stripPrefixC "General_Category".data (r1.dropWhile isSpaceC) with
    | some ('=' :: r3) =>
      let w := r3.takeWhile isWordChar
      let r5 := r3.dropWhile isWordChar
      if w.isEmpty then none
      else if r5 = [] ∨ r5 = ['\n'] then some (String.mk w) else none
    | _ => none
  | _ => none

/-- `key in dict` on an insertion-ordered Python dict modelled as an
association list. -/
def dictHasKey {γ : Type} : List (String × List γ) → String → Bool
  | [], _ => false
  | e :: rest, k => e.1 == k || dictHasKey rest k

/-- `dict[key]` for a present key (`[]` for an absent one; every use in
the model is guarded by presence). -/
def dictGet {γ : Type} : List (String × List γ) → String → List γ
  | [], _ => []
  | e :: rest, k => if e.1 = k then e.2 else dictGet rest k

/-- `if not (name in dict): dict[name] = []` (the header branches at
mktables.py lines 205-206 and 346-347). -/
def dictEnsure {γ : Type} : List (String × List γ) → String → List (String × List γ)
  | [], k => [(k, [])]
  | e :: rest, k => if e.1 = k then e :: rest else e :: dictEnsure rest k

/-- The lazy-creation append idiom of `process_core_props` (lines 149-151
and 158-160) and `process_emoji_props` (lines 299-301):
`if not (prop in props): props[prop] = []` followed by
`props[prop].append(v)`. -/
def dictAppendLazy {γ : Type} : List (String × List γ) → String → γ → List (String × List γ)
  | [], k, v => [(k, [v])]
  | e :: rest, k, v =>
    if e.1 = k then (e.1, e.2 ++ [v]) :: rest
    else e :: dictAppendLazy rest k v

/-- The bare `dict[key].append(v)` of `process_props` (lines 212, 219) and
`process_derived_general_category` (lines 355, 362): raises `KeyError`
(modelled as `none`) when the key has no list yet. -/
def dictAppendExisting {γ : Type} :
    List (String × List γ) → String → γ → Option (List (String × List γ))
  | [], _, _ => none
  | e :: rest, k, v =>
    if e.1 = k then some ((e.1, e.2 ++ [v]) :: rest)
    else (dictAppendExisting rest k v).map (fun r => e :: r)

/-- One iteration of the `process_core_props` collection loop (mktables.py
lines 138-160): skip empty and `#`-led lines, then try both record
regexes, appending with lazy list creation keyed by the property token. -/
def coreStep (props : List (String × List CoreEntry)) (line : List Char) :
    List (String × List CoreEntry) :=
  if line = [] ∨ line.head? = some '#' then props
  else
    let props1 :=
      match matchSingleValue line with
      | some (code, prop, comment) => dictAppendLazy props prop ⟨code, code, comment⟩
      | none => props
    match matchRangeValue line with
    | some (s, e, prop, comment) => dictAppendLazy props1 prop ⟨s, e, comment⟩
    | none => props1

/-- The `process_core_props` collection loop over a whole file. -/
def coreCollect (lines : List (List Char)) : List (String × List CoreEntry) :=
  lines.foldl coreStep []

/-- One iteration of the `process_props` collection loop (mktables.py
lines 198-219): a header marker updates the active sub-table name and
lazily creates its list; data records are appended to the *active* group
with `props[props_name].append(...)`, which raises `KeyError` (`none`)
when no header has been seen yet. -/
def ppStep (key : List Char) (st : String × List (String × List RangeEntry))
    (line : List Char) : Option (String × List (String × List RangeEntry)) :=
  let pst :=
    match matchPropsHeader key line with
    | some name => (name, dictEnsure st.2 name)
    | none => st
  do
    let props1 ←
      match matchSingleValue line with
      | some (code, prop, comment) =>
        dictAppendExisting pst.2 pst.1 ⟨code, code, prop, comment⟩
      | none => some pst.2
    let props2 ←
      match matchRangeValue line with
      | some (s, e, prop, comment) =>
        dictAppendExisting props1 pst.1 ⟨s, e, prop, comment⟩
      | none => some props1
    some (pst.1, props2)

/-- The `process_props` collection loop over a whole file, starting from
`props_name = ''` and an empty dict (mktables.py lines 196-197). -/
def ppCollect (key : List Char) (lines : List (List Char)) :
    Option (String × List (String × List RangeEntry)) :=
  lines.foldlM (ppStep key) ("", [])

/-- One iteration of the `process_derived_general_category` collection
loop (mktables.py lines 339-362): the header check runs before the
comment skip; records go to `cats[cat_name]`, `KeyError` (`none`) when no
header has been seen; the per-record property token is ignored. -/
def gcStep (st : String × List (String × List CoreEntry)) (line : List Char) :
    Option (String × List (String × List CoreEntry)) :=
  let cst :=
    match matchGCHeader line with
    | some name => (name, dictEnsure st.2 name)
    | none => st
  if line = [] ∨ line.head? = some '#' then some cst
  else do
    let cats1 ←
      match matchSingleValue line with
      | some (code, _, comment) => dictAppendExisting cst.2 cst.1 ⟨code, code, comment⟩
      | none => some cst.2
    let cats2 ←
      match matchRangeValue line with
      | some (s, e, _, comment) => dictAppendExisting cats1 cst.1 ⟨s, e, comment⟩
      | none => some cats1
    some (cst.1, cats2)

/-- The `process_derived_general_category` collection loop (note line 334
recompiles `rangeValueRE` to the same pattern, a semantic no-op). -/
def gcCollect (lines : List (List Char)) :
    Option (String × List (String × List CoreEntry)) :=
  lines.foldlM gcStep ("", [])

/-- One iteration of the `process_emoji_props` collection loop (mktables.py
lines 292-301): `parse_range` each line, group by the record's property
token with lazy list creation. -/
def emojiStep (props : List (String × List RangeEntry)) (line : List Char) :
    List (String × List RangeEntry) :=
  match parse_range line with
  | some r => dictAppendLazy props r.property r
  | none => props

/-- The `process_emoji_props` collection loop. -/
def emojiCollect (lines : List (List Char)) : List (String × List RangeEntry) :=
  lines.foldl emojiStep []

/-- `UCDGenerator.collect_range_table_with_prop` (mktables.py lines
397-417): a flat list of records from both regexes, sorted by start. -/
def collect_range_table_with_prop (lines : List (List Char)) : List RangeEntry :=
  sortByStart RangeEntry.start (lines.foldl (fun table line =>
    let t1 :=
      match matchSingleValue line with
      | some (code, prop, comment) => table ++ [⟨code, code, prop, comment⟩]
      | none => table
    match matchRangeValue line with
    | some (s, e, prop, comment) => t1 ++ [⟨s, e, prop, comment⟩]
    | none => t1) [])

/-- Lazy append retains the appended value under its key. -/
theorem dictGet_dictAppendLazy_self {γ : Type} (props : List (String × List γ))
    (k : String) (v : γ) : v ∈ dictGet (dictAppendLazy props k v) k := by
  induction props with
  | nil => simp [dictAppendLazy, dictGet]
  | cons e rest ih =>
    by_cases he : e.1 = k
    · simp [dictAppendLazy, dictGet, he]
    · simp [dictAppendLazy, dictGet, he, ih]

/-- Lazy append never removes a previously stored value. -/
theorem dictGet_dictAppendLazy_mono {γ : Type} (props : List (String × List γ))
    (k k' : String) (v v' : γ) (h : v ∈ dictGet props k) :
    v ∈ dictGet (dictAppendLazy props k' v') k := by
  induction props with
  | nil => simp [dictGet] at h
  | cons e rest ih =>
    simp only [dictGet] at h
    simp only [dictAppendLazy]
    by_cases he' : e.1 = k'
    · rw [if_pos he']
      simp only [dictGet]
      by_cases hk : e.1 = k
      · rw [if_pos hk] at h ⊢
        exact List.mem_append_left _ h
      · rw [if_neg hk] at h ⊢
        exact h
    · rw [if_neg he']
      simp only [dictGet]
      by_cases hk : e.1 = k
      · rw [if_pos hk] at h ⊢
        exact h
      · rw [if_neg hk] at h ⊢
        exact ih h

/-- Bare append fails (`KeyError`) exactly when the key is absent. -/
theorem dictAppendExisting_absent {γ : Type} (props : List (String × List γ))
    (k : String) (v : γ) (h : dictHasKey props k = false) :
    dictAppendExisting props k v = none := by
  induction props with
  | nil => rfl
  | cons e rest ih =>
    simp only [dictHasKey, Bool.or_eq_false_iff, beq_eq_false_iff_ne] at h
    simp [dictAppendExisting, h.1, ih h.2]

/-- Bare append on a present key succeeds and retains the value. -/
theorem dictAppendExisting_present {γ : Type} (props : List (String × List γ))
    (k : String) (v : γ) (h : dictHasKey props k = true) :
    ∃ props', dictAppendExisting props k v = some props' ∧ v ∈ dictGet props' k := by
  induction props with
  | nil => simp [dictHasKey] at h
  | cons e rest ih =>
    by_cases he : e.1 = k
    · exact ⟨(e.1, e.2 ++ [v]) :: rest, by simp [dictAppendExisting, he],
        by simp [dictGet, he]⟩
    · simp only [dictHasKey, Bool.or_eq_true, beq_iff_eq, he, false_or] at h
      obtain ⟨props', hp, hv⟩ := ih h
      exact ⟨e :: props', by simp [dictAppendExisting, he, hp], by simp [dictGet, he, hv]⟩

/-- A `singleValueRE` match starts with a hex digit, so the matched line
is neither empty nor a `#` comment line. -/
theorem matchSingleValue_head {line : List Char} {r : Nat × String × String}
    (h : matchSingleValue line = some r) :
    ∃ c rest, line = c :: rest ∧ isHexDigit c = true := by
  cases line with
  | nil => simp [matchSingleValue] at h
  | cons c rest =>
    refine ⟨c, rest, rfl, ?_⟩
    by_contra hc
    simp only [Bool.not_eq_true] at hc
    simp [matchSingleValue, List.takeWhile, hc] at h

/-- In `process_core_props`, a record matched by `singleValueRE` is always
retained in the output dict under its token (lazy creation). -/
theorem coreStep_retains_single (props : List (String × List CoreEntry))
    (line : List Char) (code : Nat) (prop comment : String)
    (h : matchSingleValue line = some (code, prop, comment)) :
    (⟨code, code, comment⟩ : CoreEntry) ∈ dictGet (coreStep props line) prop := by
  obtain ⟨c, rest, hline, hc⟩ := matchSingleValue_head h
  subst hline
  have hch : c ≠ '#' := by
    intro hceq
    rw [hceq] at hc
    exact absurd hc (by decide)
  have hskip : ¬(c :: rest = [] ∨ (c :: rest).head? = some '#') := by
    simp [hch]
  unfold coreStep
  rw [if_neg hskip, h]
  dsimp only
  split
  next s e prop' comment' _ =>
    exact dictGet_dictAppendLazy_mono _ _ _ _ _ (dictGet_dictAppendLazy_self _ _ _)
  next => exact dictGet_dictAppendLazy_self _ _ _

/-- A `rangeValueRE` match also starts with a hex digit. -/
theorem matchRangeValue_head {line : List Char} {r : Nat × Nat × String × String}
    (h : matchRangeValue line = some r) :
    ∃ c rest, line = c :: rest ∧ isHexDigit c = true := by
  cases line with
  | nil => simp [matchRangeValue] at h
  | cons c rest =>
    refine ⟨c, rest, rfl, ?_⟩
    by_contra hc
    simp only [Bool.not_eq_true] at hc
    simp [matchRangeValue, List.takeWhile, hc] at h

/-- A line that does not start with `#` matches no `process_props` header
marker. -/
theorem matchPropsHeader_none_of_ne (key : List Char) (c : Char) (rest : List Char)
    (hc : c ≠ '#') : matchPropsHeader key (c :: rest) = none := by
  unfold matchPropsHeader
  split
  next => simp_all
  next => rfl

/-- A line that does not start with `#` matches no
`process_derived_general_category` header marker. -/
theorem matchGCHeader_none_of_ne (c : Char) (rest : List Char)
    (hc : c ≠ '#') : matchGCHeader (c :: rest) = none := by
  unfold matchGCHeader
  split
  next => simp_all
  next => rfl

/-- A successful bare append never removes a previously stored value. -/
theorem dictGet_dictAppendExisting_mono {γ : Type}
    {props props' : List (String × List γ)} {k k' : String} {v v' : γ}
    (hv : v ∈ dictGet props k) (h : dictAppendExisting props k' v' = some props') :
    v ∈ dictGet props' k := by
  induction props generalizing props' with
  | nil => simp [dictAppendExisting] at h
  | cons e rest ih =>
    simp only [dictGet] at hv
    by_cases he' : e.1 = k'
    · simp only [dictAppendExisting, if_pos he'] at h
      obtain rfl := Option.some.inj h
      simp only [dictGet]
      by_cases hek : e.1 = k
      · rw [if_pos hek] at hv ⊢
        exact List.mem_append_left _ hv
      · rw [if_neg hek] at hv ⊢
        exact hv
    · simp only [dictAppendExisting, if_neg he'] at h
      cases hr : dictAppendExisting rest k' v' with
      | none => rw [hr] at h; simp at h
      | some r' =>
        rw [hr] at h
        simp only [Option.map_some'] at h
        obtain rfl := Option.some.inj h
        simp only [dictGet]
        by_cases hek : e.1 = k
        · rw [if_pos hek] at hv ⊢
          exact hv
        · rw [if_neg hek] at hv ⊢
          exact ih hv hr

/-- A successful bare append preserves the key set. -/
theorem dictAppendExisting_hasKey {γ : Type}
    {props props' : List (String × List γ)} {k : String} {v : γ}
    (h : dictAppendExisting props k v = some props') (k2 : String) :
    dictHasKey props' k2 = dictHasKey props k2 := by
  induction props generalizing props' with
  | nil => simp [dictAppendExisting] at h
  | cons e rest ih =>
    by_cases he : e.1 = k
    · simp only [dictAppendExisting, if_pos he] at h
      obtain rfl := Option.some.inj h
      simp [dictHasKey]
    · simp only [dictAppendExisting, if_neg he] at h
      cases hr : dictAppendExisting rest k v with
      | none => rw [hr] at h; simp at h
      | some r' =>
        rw [hr] at h
        simp only [Option.map_some'] at h
        obtain rfl := Option.some.inj h
        simp [dictHasKey, ih hr]

/-- In `process_core_props`, a record matched by `rangeValueRE` is always
retained in the output dict under its token (lazy creation). -/
theorem coreStep_retains_range (props : List (String × List CoreEntry))
    (line : List Char) (s e : Nat) (prop comment : String)
    (h : matchRangeValue line = some (s, e, prop, comment)) :
    (⟨s, e, comment⟩ : CoreEntry) ∈ dictGet (coreStep props line) prop := by
  obtain ⟨c, rest, hline, hc⟩ := matchRangeValue_head h
  subst hline
  have hch : c ≠ '#' := fun hceq => absurd (hceq ▸ hc) (by decide)
  have hskip : ¬(c :: rest = [] ∨ (c :: rest).head? = some '#') := by
    simp [hch]
  unfold coreStep
  rw [if_neg hskip, h]
  dsimp only
  exact dictGet_dictAppendLazy_self _ _ _

/-- In `process_props`, a `singleValueRE` record with the active group's
list absent (in particular: any record before the first header marker)
raises `KeyError`. -/
theorem ppStep_single_keyerror (key : List Char)
    (st : String × List (String × List RangeEntry)) (line : List Char)
    (code : Nat) (prop comment : String)
    (hs : matchSingleValue line = some (code, prop, comment))
    (hk : dictHasKey st.2 st.1 = false) :
    ppStep key st line = none := by
  obtain ⟨c, rest, hline, hc⟩ := matchSingleValue_head hs
  subst hline
  have hch : c ≠ '#' := fun hceq => absurd (hceq ▸ hc) (by decide)
  rw [ppStep, matchPropsHeader_none_of_ne key c rest hch]
  dsimp only
  rw [hs]
  dsimp only
  rw [dictAppendExisting_absent st.2 st.1 _ hk]
  simp only [Option.bind_eq_bind, Option.none_bind]

/-- In `process_props`, a `rangeValueRE` record with the active group's
list absent raises `KeyError`. -/
theorem ppStep_range_keyerror (key : List Char)
    (st : String × List (String × List RangeEntry)) (line : List Char)
    (s e : Nat) (prop comment : String)
    (hs : matchSingleValue line = none)
    (hr : matchRangeValue line = some (s, e, prop, comment))
    (hk : dictHasKey st.2 st.1 = false) :
    ppStep key st line = none := by
  obtain ⟨c, rest, hline, hc⟩ := matchRangeValue_head hr
  subst hline
  have hch : c ≠ '#' := fun hceq => absurd (hceq ▸ hc) (by decide)
  rw [ppStep, matchPropsHeader_none_of_ne key c rest hch]
  dsimp only
  rw [hs]
  dsimp only
  simp only [Option.bind_eq_bind, Option.some_bind]
  rw [hr]
  dsimp only
  rw [dictAppendExisting_absent st.2 st.1 _ hk]
  simp only [Option.bind_eq_bind, Option.none_bind]

/-- In `process_props`, a `singleValueRE` record whose active group has a
list (as after any header marker) is appended and retained. -/
theorem ppStep_single_retains (key : List Char)
    (st : String × List (String × List RangeEntry)) (line : List Char)
    (code : Nat) (prop comment : String)
    (hs : matchSingleValue line = some (code, prop, comment))
    (hk : dictHasKey st.2 st.1 = true) :
    ∃ st', ppStep key st line = some st' ∧
      (⟨code, code, prop, comment⟩ : RangeEntry) ∈ dictGet st'.2 st.1 := by
  obtain ⟨c, rest, hline, hc⟩ := matchSingleValue_head hs
  subst hline
  have hch : c ≠ '#' := fun hceq => absurd (hceq ▸ hc) (by decide)
  obtain ⟨props1, hp1, hv1⟩ :=
    dictAppendExisting_present st.2 st.1 ⟨code, code, prop, comment⟩ hk
  rw [ppStep, matchPropsHeader_none_of_ne key c rest hch]
  dsimp only
  rw [hs]
  dsimp only
  rw [hp1]
  simp only [Option.bind_eq_bind, Option.some_bind]
  cases hr : matchRangeValue (c :: rest) with
  | none =>
    dsimp only
    exact ⟨(st.1, props1), rfl, hv1⟩
  | some r =>
    obtain ⟨s2, e2, prop2, comment2⟩ := r
    have hk1 : dictHasKey props1 st.1 = true := by
      rw [dictAppendExisting_hasKey hp1]
      exact hk
    obtain ⟨props2, hp2, hv2⟩ :=
      dictAppendExisting_present props1 st.1 ⟨s2, e2, prop2, comment2⟩ hk1
    dsimp only
    rw [hp2]
    simp only [Option.bind_eq_bind, Option.some_bind]
    exact ⟨(st.1, props2), rfl, dictGet_dictAppendExisting_mono hv1 hp2⟩

/-- In `process_props`, a `rangeValueRE` record whose active group has a
list is appended and retained. -/
theorem ppStep_range_retains (key : List Char)
    (st : String × List (String × List RangeEntry)) (line : List Char)
    (s e : Nat) (prop comment : String)
    (hs : matchSingleValue line = none)
    (hr : matchRangeValue line = some (s, e, prop, comment))
    (hk : dictHasKey st.2 st.1 = true) :
    ∃ st', ppStep key st line = some st' ∧
      (⟨s, e, prop, comment⟩ : RangeEntry) ∈ dictGet st'.2 st.1 := by
  obtain ⟨c, rest, hline, hc⟩ := matchRangeValue_head hr
  subst hline
  have hch : c ≠ '#' := fun hceq => absurd (hceq ▸ hc) (by decide)
  obtain ⟨props2, hp2, hv2⟩ :=
    dictAppendExisting_present st.2 st.1 ⟨s, e, prop, comment⟩ hk
  rw [ppStep, matchPropsHeader_none_of_ne key c rest hch]
  dsimp only
  rw [hs]
  dsimp only
  simp only [Option.bind_eq_bind, Option.some_bind]
  rw [hr]
  dsimp only
  rw [hp2]
  simp only [Option.bind_eq_bind, Option.some_bind]
  exact ⟨(st.1, props2), rfl, hv2⟩

/-- In `process_derived_general_category`, a `singleValueRE` record with
the active category's list absent (any record before the first header
marker) raises `KeyError`. -/
theorem gcStep_single_keyerror (st : String × List (String × List CoreEntry))
    (line : List Char) (code : Nat) (prop comment : String)
    (hs : matchSingleValue line = some (code, prop, comment))
    (hk : dictHasKey st.2 st.1 = false) :
    gcStep st line = none := by
  obtain ⟨c, rest, hline, hc⟩ := matchSingleValue_head hs
  subst hline
  have hch : c ≠ '#' := fun hceq => absurd (hceq ▸ hc) (by decide)
  have hskip : ¬(c :: rest = [] ∨ (c :: rest).head? = some '#') := by
    simp [hch]
  rw [gcStep, matchGCHeader_none_of_ne c rest hch]
  dsimp only
  rw [if_neg hskip, hs]
  dsimp only
  rw [dictAppendExisting_absent st.2 st.1 _ hk]
  simp only [Option.bind_eq_bind, Option.none_bind]

/-- In `process_derived_general_category`, a `rangeValueRE` record with
the active category's list absent raises `KeyError`. -/
theorem gcStep_range_keyerror (st : String × List (String × List CoreEntry))
    (line : List Char) (s e : Nat) (prop comment : String)
    (hs : matchSingleValue line = none)
    (hr : matchRangeValue line = some (s, e, prop, comment))
    (hk : dictHasKey st.2 st.1 = false) :
    gcStep st line = none := by
  obtain ⟨c, rest, hline, hc⟩ := matchRangeValue_head hr
  subst hline
  have hch : c ≠ '#' := fun hceq => absurd (hceq ▸ hc) (by decide)
  have hskip : ¬(c :: rest = [] ∨ (c :: rest).head? = some '#') := by
    simp [hch]
  rw [gcStep, matchGCHeader_none_of_ne c rest hch]
  dsimp only
  rw [if_neg hskip, hs]
  dsimp only
  simp only [Option.bind_eq_bind, Option.some_bind]
  rw [hr]
  dsimp only
  rw [dictAppendExisting_absent st.2 st.1 _ hk]
  simp only [Option.bind_eq_bind, Option.none_bind]

/-- In `process_derived_general_category`, a `singleValueRE` record whose
active category has a list is appended (its token dropped) and
retained. -/
theorem gcStep_single_retains (st : String × List (String × List CoreEntry))
    (line : List Char) (code : Nat) (prop comment : String)
    (hs : matchSingleValue line = some (code, prop, comment))
    (hk : dictHasKey st.2 st.1 = true) :
    ∃ st', gcStep st line = some st' ∧
      (⟨code, code, comment⟩ : CoreEntry) ∈ dictGet st'.2 st.1 := by
  obtain ⟨c, rest, hline, hc⟩ := matchSingleValue_head hs
  subst hline
  have hch : c ≠ '#' := fun hceq => absurd (hceq ▸ hc) (by decide)
  have hskip : ¬(c :: rest = [] ∨ (c :: rest).head? = some '#') := by
    simp [hch]
  obtain ⟨cats1, hp1, hv1⟩ :=
    dictAppendExisting_present st.2 st.1 ⟨code, code, comment⟩ hk
  rw [gcStep, matchGCHeader_none_of_ne c rest hch]
  dsimp only
  rw [if_neg hskip, hs]
  dsimp only
  rw [hp1]
  simp only [Option.bind_eq_bind, Option.some_bind]
  cases hr : matchRangeValue (c :: rest) with
  | none =>
    dsimp only
    exact ⟨(st.1, cats1), rfl, hv1⟩
  | some r =>
    obtain ⟨s2, e2, prop2, comment2⟩ := r
    have hk1 : dictHasKey cats1 st.1 = true := by
      rw [dictAppendExisting_hasKey hp1]
      exact hk
    obtain ⟨cats2, hp2, hv2⟩ :=
      dictAppendExisting_present cats1 st.1 ⟨s2, e2, comment2⟩ hk1
    dsimp only
    rw [hp2]
    simp only [Option.bind_eq_bind, Option.some_bind]
    exact ⟨(st.1, cats2), rfl, dictGet_dictAppendExisting_mono hv1 hp2⟩

/-- In `process_derived_general_category`, a `rangeValueRE` record whose
active category has a list is appended (its token dropped) and
retained. -/
theorem gcStep_range_retains (st : String × List (String × List CoreEntry))
    (line : List Char) (s e : Nat) (prop comment : String)
    (hs : matchSingleValue line = none)
    (hr : matchRangeValue line = some (s, e, prop, comment))
    (hk : dictHasKey st.2 st.1 = true) :
    ∃ st', gcStep st line = some st' ∧
      (⟨s, e, comment⟩ : CoreEntry) ∈ dictGet st'.2 st.1 := by
  obtain ⟨c, rest, hline, hc⟩ := matchRangeValue_head hr
  subst hline
  have hch : c ≠ '#' := fun hceq => absurd (hceq ▸ hc) (by decide)
  have hskip : ¬(c :: rest = [] ∨ (c :: rest).head? = some '#') := by
    simp [hch]
  obtain ⟨cats2, hp2, hv2⟩ :=
    dictAppendExisting_present st.2 st.1 ⟨s, e, comment⟩ hk
  rw [gcStep, matchGCHeader_none_of_ne c rest hch]
  dsimp only
  rw [if_neg hskip, hs]
  dsimp only
  simp only [Option.bind_eq_bind, Option.some_bind]
  rw [hr]
  dsimp only
  rw [hp2]
  simp only [Option.bind_eq_bind, Option.some_bind]
  exact ⟨(st.1, cats2), rfl, hv2⟩

/-- Claim C5 (counterexample): in the marker-driven `process_props` mode a
data record that appears before any sub-table header marker is not
retained by lazy creation — it raises `KeyError` (the model returns
`none`) because `props[props_name]` is accessed with the initial
`props_name = ''` absent from the dict.  The line parses as a record and
is not a header, yet aggregation fails. -/
theorem record_before_header_raises :
    matchSingleValue "0041 ; Alpha # L\n".data = some (65, "Alpha", "L") ∧
    matchPropsHeader "Property".data "0041 ; Alpha # L\n".data = none ∧
    ppCollect "Property".data ["0041 ; Alpha # L\n".data] = none := by
  refine ⟨by decide, by decide, by decide⟩

/-- Claim C5 (amended): in the token-keyed parsing modes
(`process_core_props` and `process_emoji_props`) every parsed record —
from either record regex — is retained, with its token's list created on
demand.  In the marker-driven modes (`process_props` and
`process_derived_general_category`) a record of either form is appended
to the *active* sub-table group's list: when that group has no list yet
(in particular for any record before the first header marker) the step
raises `KeyError` and the run fails instead of creating a list on
demand, and when the group's list exists (as after any header marker)
the record is appended and retained. -/
theorem lazy_creation_amended :
    (∀ (props : List (String × List CoreEntry)) (line : List Char) (code : Nat)
        (prop comment : String), matchSingleValue line = some (code, prop, comment) →
        (⟨code, code, comment⟩ : CoreEntry) ∈ dictGet (coreStep props line) prop) ∧
    (∀ (props : List (String × List CoreEntry)) (line : List Char) (s e : Nat)
        (prop comment : String), matchRangeValue line = some (s, e, prop, comment) →
        (⟨s, e, comment⟩ : CoreEntry) ∈ dictGet (coreStep props line) prop) ∧
    (∀ (props : List (String × List RangeEntry)) (line : List Char) (r : RangeEntry),
        parse_range line = some r → r ∈ dictGet (emojiStep props line) r.property) ∧
    (∀ (key : List Char) (st : String × List (String × List RangeEntry))
        (line : List Char) (code : Nat) (prop comment : String),
        matchSingleValue line = some (code, prop, comment) →
        dictHasKey st.2 st.1 = false → ppStep key st line = none) ∧
    (∀ (key : List Char) (st : String × List (String × List RangeEntry))
        (line : List Char) (s e : Nat) (prop comment : String),
        matchSingleValue line = none → matchRangeValue line = some (s, e, prop, comment) →
        dictHasKey st.2 st.1 = false → ppStep key st line = none) ∧
    (∀ (key : List Char) (st : String × List (String × List RangeEntry))
        (line : List Char) (code : Nat) (prop comment : String),
        matchSingleValue line = some (code, prop, comment) →
        dictHasKey st.2 st.1 = true →
        ∃ st', ppStep key st line = some st' ∧
          (⟨code, code, prop, comment⟩ : RangeEntry) ∈ dictGet st'.2 st.1) ∧
    (∀ (key : List Char) (st : String × List (String × List RangeEntry))
        (line : List Char) (s e : Nat) (prop comment : String),
        matchSingleValue line = none → matchRangeValue line = some (s, e, prop, comment) →
        dictHasKey st.2 st.1 = true →
        ∃ st', ppStep key st line = some st' ∧
          (⟨s, e, prop, comment⟩ : RangeEntry) ∈ dictGet st'.2 st.1) ∧
    (∀ (st : String × List (String × List CoreEntry)) (line : List Char)
        (code : Nat) (prop comment : String),
        matchSingleValue line = some (code, prop, comment) →
        dictHasKey st.2 st.1 = false → gcStep st line = none) ∧
    (∀ (st : String × List (String × List CoreEntry)) (line : List Char)
        (s e : Nat) (prop comment : String),
        matchSingleValue line = none → matchRangeValue line = some (s, e, prop, comment) →
        dictHasKey st.2 st.1 = false → gcStep st line = none) ∧
    (∀ (st : String × List (String × List CoreEntry)) (line : List Char)
        (code : Nat) (prop comment : String),
        matchSingleValue line = some (code, prop, comment) →
        dictHasKey st.2 st.1 = true →
        ∃ st', gcStep st line = some st' ∧
          (⟨code, code, comment⟩ : CoreEntry) ∈ dictGet st'.2 st.1) ∧
    (∀ (st : String × List (String × List CoreEntry)) (line : List Char)
        (s e : Nat) (prop comment : String),
        matchSingleValue line = none → matchRangeValue line = some (s, e, prop, comment) →
        dictHasKey st.2 st.1 = true →
        ∃ st', gcStep st line = some st' ∧
          (⟨s, e, comment⟩ : CoreEntry) ∈ dictGet st'.2 st.1) := by
  refine ⟨coreStep_retains_single, coreStep_retains_range, ?_,
    ppStep_single_keyerror, ppStep_range_keyerror,
    ppStep_single_retains, ppStep_range_retains,
    gcStep_single_keyerror, gcStep_range_keyerror,
    gcStep_single_retains, gcStep_range_retains⟩
  intro props line r h
  simp only [emojiStep, h]
  exact dictGet_dictAppendLazy_self _ _ _

/-- Witness for `lazy_creation_amended` at concrete inputs: the single
record line `0041 ; Alpha # L`, the range record line
`0041..005A ; Alpha # R`, the empty pre-header state, and states whose
active group already has a list. -/
theorem lazy_creation_amended_witness :
    matchSingleValue "0041 ; Alpha # L\n".data = some (65, "Alpha", "L") ∧
    matchRangeValue "0041..005A ; Alpha # R\n".data = some (65, 90, "Alpha", "R") ∧
    matchSingleValue "0041..005A ; Alpha # R\n".data = none ∧
    parse_range "0041 ; Alpha # L\n".data = some ⟨65, 65, "Alpha", "L"⟩ ∧
    dictHasKey ([] : List (String × List RangeEntry)) "" = false ∧
    dictHasKey [("GCB", ([] : List RangeEntry))] "GCB" = true ∧
    dictHasKey ([] : List (String × List CoreEntry)) "" = false ∧
    dictHasKey [("Lu", ([] : List CoreEntry))] "Lu" = true ∧
    (⟨65, 65, "L"⟩ : CoreEntry) ∈ dictGet (coreStep [] "0041 ; Alpha # L\n".data) "Alpha" ∧
    (⟨65, 90, "R"⟩ : CoreEntry)
      ∈ dictGet (coreStep [] "0041..005A ; Alpha # R\n".data) "Alpha" ∧
    (⟨65, 65, "Alpha", "L"⟩ : RangeEntry)
      ∈ dictGet (emojiStep [] "0041 ; Alpha # L\n".data) "Alpha" ∧
    ppStep "Property".data ("", []) "0041 ; Alpha # L\n".data = none ∧
    ppStep "Property".data ("", []) "0041..005A ; Alpha # R\n".data = none ∧
    (∃ st', ppStep "Property".data ("GCB", [("GCB", [])]) "0041 ; Alpha # L\n".data
      = some st' ∧ (⟨65, 65, "Alpha", "L"⟩ : RangeEntry) ∈ dictGet st'.2 "GCB") ∧
    (∃ st', ppStep "Property".data ("GCB", [("GCB", [])]) "0041..005A ; Alpha # R\n".data
      = some st' ∧ (⟨65, 90, "Alpha", "R"⟩ : RangeEntry) ∈ dictGet st'.2 "GCB") ∧
    gcStep ("", []) "0041 ; Alpha # L\n".data = none ∧
    gcStep ("", []) "0041..005A ; Alpha # R\n".data = none ∧
    (∃ st', gcStep ("Lu", [("Lu", [])]) "0041 ; Alpha # L\n".data = some st' ∧
      (⟨65, 65, "L"⟩ : CoreEntry) ∈ dictGet st'.2 "Lu") ∧
    (∃ st', gcStep ("Lu", [("Lu", [])]) "0041..005A ; Alpha # R\n".data = some st' ∧
      (⟨65, 90, "R"⟩ : CoreEntry) ∈ dictGet st'.2 "Lu") :=
  ⟨by decide, by decide, by decide, by decide, by decide, by decide, by decide, by decide,
   lazy_creation_amended.1 [] "0041 ; Alpha # L\n".data 65 "Alpha" "L" (by decide),
   lazy_creation_amended.2.1 [] "0041..005A ; Alpha # R\n".data 65 90 "Alpha" "R" (by decide),
   lazy_creation_amended.2.2.1 [] "0041 ; Alpha # L\n".data ⟨65, 65, "Alpha", "L"⟩ (by decide),
   lazy_creation_amended.2.2.2.1 "Property".data ("", []) "0041 ; Alpha # L\n".data
     65 "Alpha" "L" (by decide) (by decide),
   lazy_creation_amended.2.2.2.2.1 "Property".data ("", []) "0041..005A ; Alpha # R\n".data
     65 90 "Alpha" "R" (by decide) (by decide) (by decide),
   lazy_creation_amended.2.2.2.2.2.1 "Property".data ("GCB", [("GCB", [])])
     "0041 ; Alpha # L\n".data 65 "Alpha" "L" (by decide) (by decide),
   lazy_creation_amended.2.2.2.2.2.2.1 "Property".data ("GCB", [("GCB", [])])
     "0041..005A ; Alpha # R\n".data 65 90 "Alpha" "R" (by decide) (by decide) (by decide),
   lazy_creation_amended.2.2.2.2.2.2.2.1 ("", []) "0041 ; Alpha # L\n".data
     65 "Alpha" "L" (by decide) (by decide),
   lazy_creation_amended.2.2.2.2.2.2.2.2.1 ("", []) "0041..005A ; Alpha # R\n".data
     65 90 "Alpha" "R" (by decide) (by decide) (by decide),
   lazy_creation_amended.2.2.2.2.2.2.2.2.2.1 ("Lu", [("Lu", [])])
     "0041 ; Alpha # L\n".data 65 "Alpha" "L" (by decide) (by decide),
   lazy_creation_amended.2.2.2.2.2.2.2.2.2.2 ("Lu", [("Lu", [])])
     "0041..005A ; Alpha # R\n".data 65 90 "Alpha" "R" (by decide) (by decide) (by decide)⟩

/-- One uppercase hex digit. -/
def hexDigitChar (n : Nat) : Char :=
  if n < 10 then Char.ofNat (48 + n) else Char.ofNat (55 + n)

/-- Uppercase hex digits of `n`, most significant first. -/
def hexChars (n : Nat) : List Char :=
  if _h : n < 16 then [hexDigitChar n]
  else hexChars (n / 16) ++ [hexDigitChar (n % 16)]
decreasing_by exact Nat.div_lt_self (by omega) (by omega)

/-- Python's `'{:>04X}'.format(n)`: uppercase hex, right-aligned,
zero-filled to width 4. -/
def hex4 (n : Nat) : String :=
  String.mk (List.replicate (4 - (hexChars n).length) '0' ++ hexChars n)

/-- Python's `sorted()` on a list of strings (code-point lexicographic
order, which is exactly Lean's `String` order). -/
def sortStrings (l : List String) : List String :=
  List.insertionSort (fun a b : String => a ≤ b) l

/-- `dict.keys()` in insertion order. -/
def dictKeys {γ : Type} (props : List (String × List γ)) : List String :=
  props.map Prod.fst

/-- `str.lower()` (the names involved are ASCII word characters). -/
def lowerStr (s : String) : String :=
  String.map Char.toLower s

/-- Sorting each value list of the dict in place by `start` (the
`for prop_key in props.keys(): props[prop_key].sort(...)` loops). -/
def sortDictByStart {γ : Type} (key : γ → Nat) (props : List (String × List γ)) :
    List (String × List γ) :=
  props.map (fun p => (p.1, sortByStart key p.2))

/-- `sorted(set(...))` over the property tokens of one table
(mktables.py lines 243-246 and 253-256): Python's set has arbitrary
iteration order, but it is always consumed through `sorted`, whose result
is the ascending list of the distinct tokens. -/
def sortedEnums (entries : List RangeEntry) : List String :=
  sortStrings (entries.map RangeEntry.property).dedup

/-- Implementation text emitted by `process_core_props` (mktables.py
lines 166-182): the range tables and the `contains(Core_Property, ...)`
switch, both iterating `sorted(props.keys())`. -/
def emitCoreImpl (props : List (String × List CoreEntry)) : String :=
  "namespace tables \x7b\n" ++
  String.join ((sortStrings (dictKeys props)).map (fun name =>
    "auto constexpr " ++ name ++ " = std::array\x7b // \x7b\x7b\x7b\n" ++
    String.join ((dictGet props name).map (fun r =>
      "    Interval\x7b 0x" ++ hex4 r.start ++ ", 0x" ++ hex4 r.stop ++ " \x7d, // "
        ++ r.comment ++ "\n")) ++
    "\x7d; // \x7d\x7d\x7d\n")) ++
  "\x7d // end namespace tables\n\n" ++
  "bool contains(Core_Property _prop, char32_t _codepoint) noexcept \x7b\n" ++
  "    switch (_prop) \x7b\n" ++
  String.join ((sortStrings (dictKeys props)).map (fun name =>
    "        case Core_Property::" ++ name ++ ": return contains(tables::" ++ name
      ++ ", _codepoint);\n")) ++
  "    \x7d\n" ++ "    return false;\n" ++ "\x7d\n\n"

/-- Header text emitted by `process_core_props` (mktables.py lines
184-189): the `Core_Property` enum and the accessor signature. -/
def emitCoreHeader (props : List (String × List CoreEntry)) : String :=
  "enum class Core_Property \x7b\n" ++
  String.join ((sortStrings (dictKeys props)).map (fun name => "    " ++ name ++ ",\n")) ++
  "\x7d;\n\n" ++
  "bool contains(Core_Property _prop, char32_t _codepoint) noexcept;\n\n"

/-- `process_core_props` (mktables.py lines 134-189) minus the file
`open`: collect, sort each property's list, emit (header text, impl
text). -/
def processCoreProps (lines : List (List Char)) : String × String :=
  let props := sortDictByStart CoreEntry.start (coreCollect lines)
  (emitCoreHeader props, emitCoreImpl props)

/-- Enum declarations emitted by `process_props` (mktables.py lines
240-248): one `enum class` per sorted table name, with the de-duplicated,
sorted value tokens. -/
def emitPropsEnumsHeader (props : List (String × List RangeEntry)) : String :=
  String.join ((sortStrings (dictKeys props)).map (fun name =>
    "enum class " ++ name ++ " \x7b\n" ++
    String.join ((sortedEnums (dictGet props name)).map (fun e => "    " ++ e ++ ",\n")) ++
    "\x7d;\n\n"))

/-- Range tables emitted by `process_props` (mktables.py lines 225-238). -/
def emitPropsTablesImpl (props : List (String × List RangeEntry)) : String :=
  "namespace tables \x7b\n" ++
  String.join ((sortStrings (dictKeys props)).map (fun name =>
    "auto constexpr " ++ name ++ " = std::array\x7b // \x7b\x7b\x7b\n" ++
    String.join ((dictGet props name).map (fun r =>
      "    Prop<crispy::text::" ++ name ++ ">\x7b \x7b 0x" ++ hex4 r.start ++ ", 0x"
        ++ hex4 r.stop ++ " \x7d, crispy::text::" ++ name ++ "::" ++ r.property
        ++ " \x7d, // " ++ r.comment ++ "\n")) ++
    "\x7d; // \x7d\x7d\x7d\n")) ++
  "\x7d // end namespace tables\n\n"

/-- Accessor declarations/definitions emitted by `process_props`
(mktables.py lines 250-266), as (header text, impl text). -/
def emitPropsAccessors (props : List (String × List RangeEntry)) : String × String :=
  (String.join ((sortStrings (dictKeys props)).map (fun name =>
     "namespace " ++ lowerStr name ++ " \x7b\n" ++
     String.join ((sortedEnums (dictGet props name)).map (fun e =>
       "    bool " ++ lowerStr e ++ "(char32_t _codepoint) noexcept;\n")) ++
     "\x7d\n")) ++ "\n",
   String.join ((sortStrings (dictKeys props)).map (fun name =>
     "namespace " ++ lowerStr name ++ " \x7b\n" ++
     String.join ((sortedEnums (dictGet props name)).map (fun e =>
       "    bool " ++ lowerStr e ++ "(char32_t _codepoint) noexcept \x7b\n" ++
       "        if (auto p = search(tables::" ++ name ++ ", _codepoint); p.has_value())\n" ++
       "            return p.value() == " ++ name ++ "::" ++ e ++ ";\n" ++
       "        return false;\n" ++
       "    \x7d\n\n")) ++
     "\x7d\n")) ++ "\n")

/-- `process_props` (mktables.py lines 191-266) minus the file `open`:
`none` models the `KeyError` escaping when a record precedes every header
marker (nothing is written in that case — collection completes before any
write). -/
def processPropsFile (key : List Char) (lines : List (List Char)) :
    Option (String × String) :=
  match ppCollect key lines with
  | none => none
  | some st =>
    let props := sortDictByStart RangeEntry.start st.2
    let acc := emitPropsAccessors props
    some (emitPropsEnumsHeader props ++ acc.1, emitPropsTablesImpl props ++ acc.2)

/-- Implementation text emitted by `process_derived_general_category`
(mktables.py lines 364-380); note this processor never sorts its lists. -/
def emitGCImpl (cats : List (String × List CoreEntry)) : String :=
  "namespace tables \x7b\n" ++
  String.join ((sortStrings (dictKeys cats)).map (fun name =>
    "auto constexpr " ++ name ++ " = std::array\x7b // \x7b\x7b\x7b\n" ++
    String.join ((dictGet cats name).map (fun r =>
      "    Interval\x7b 0x" ++ hex4 r.start ++ ", 0x" ++ hex4 r.stop ++ " \x7d, // "
        ++ r.comment ++ "\n")) ++
    "\x7d; // \x7d\x7d\x7d\n")) ++
  "\x7d // end namespace tables\n\n" ++
  "bool contains(General_Category _cat, char32_t _codepoint) noexcept \x7b\n" ++
  "    switch (_cat) \x7b\n" ++
  String.join ((sortStrings (dictKeys cats)).map (fun name =>
    "        case General_Category::" ++ name ++ ": return contains(tables::" ++ name
      ++ ", _codepoint);\n")) ++
  "    \x7d\n" ++ "    return false;\n" ++ "\x7d\n\n"

/-- Header text emitted by `process_derived_general_category`
(mktables.py lines 382-395). -/
def emitGCHeader (cats : List (String × List CoreEntry)) : String :=
  "enum class General_Category \x7b\n" ++
  String.join ((sortStrings (dictKeys cats)).map (fun name => "    " ++ name ++ ",\n")) ++
  "\x7d;\n\n" ++
  "bool contains(General_Category _cat, char32_t _codepoint) noexcept;\n\n" ++
  "namespace general_category \x7b\n" ++
  String.join ((sortStrings (dictKeys cats)).map (fun name =>
    "    inline bool " ++ lowerStr name ++
      "(char32_t _codepoint) \x7b return contains(General_Category::" ++ name
      ++ ", _codepoint); \x7d\n")) ++
  "\x7d\n\n"

/-- `process_derived_general_category` (mktables.py lines 330-395) minus
the file `open`. -/
def processDerivedGeneralCategory (lines : List (List Char)) : Option (String × String) :=
  match gcCollect lines with
  | none => none
  | some st => some (emitGCHeader st.2, emitGCImpl st.2)

/-- Implementation text emitted by `process_emoji_props` (mktables.py
lines 307-323). -/
def emitEmojiImpl (props : List (String × List RangeEntry)) : String :=
  "namespace tables \x7b\n" ++
  String.join ((sortStrings (dictKeys props)).map (fun name =>
    "auto constexpr " ++ name ++ " = std::array\x7b // \x7b\x7b\x7b\n" ++
    String.join ((dictGet props name).map (fun r =>
      "    Interval\x7b 0x" ++ hex4 r.start ++ ", 0x" ++ hex4 r.stop ++ " \x7d, // "
        ++ r.comment ++ "\n")) ++
    "\x7d; // \x7d\x7d\x7d\n")) ++
  "\x7d // end namespace tables\n\n" ++
  String.join ((sortStrings (dictKeys props)).map (fun name =>
    "bool " ++ lowerStr name ++ "(char32_t _codepoint) noexcept \x7b\n" ++
    "    return contains(tables::" ++ name ++ ", _codepoint);\n" ++
    "\x7d\n\n"))

/-- Header text emitted by `process_emoji_props` (mktables.py lines
325-328). -/
def emitEmojiHeader (props : List (String × List RangeEntry)) : String :=
  String.join ((sortStrings (dictKeys props)).map (fun name =>
    "bool " ++ lowerStr name ++ "(char32_t _codepoint) noexcept;\n")) ++ "\n"

/-- `process_emoji_props` (mktables.py lines 287-328) minus the file
`open`. -/
def processEmojiProps (lines : List (List Char)) : String × String :=
  let props := sortDictByStart RangeEntry.start (emojiCollect lines)
  (emitEmojiHeader props, emitEmojiImpl props)

/-- `dictGet` computes `find?` by the key. -/
theorem dictGet_eq_find? {γ : Type} (l : List (String × List γ)) (k : String) :
    dictGet l k = ((l.find? (fun e => e.1 == k)).map Prod.snd).getD [] := by
  induction l with
  | nil => rfl
  | cons e rest ih =>
    by_cases he : e.1 = k
    · simp [dictGet, List.find?_cons, he]
    · have : (e.1 == k) = false := by simp [he]
      simp [dictGet, List.find?_cons, he, this, ih]

/-- `find?` by key is invariant under permutation of an association list
with no duplicate keys. -/
theorem find?_key_eq_of_perm {γ : Type} {l₁ l₂ : List (String × List γ)}
    (hp : l₁.Perm l₂) (hnd : (l₁.map Prod.fst).Nodup) (k : String) :
    l₁.find? (fun e => e.1 == k) = l₂.find? (fun e => e.1 == k) := by
  cases h1 : l₁.find? (fun e => e.1 == k) with
  | none =>
    cases h2 : l₂.find? (fun e => e.1 == k) with
    | none => rfl
    | some e =>
      have he : e ∈ l₁ := hp.mem_iff.mpr (List.mem_of_find?_eq_some h2)
      exact absurd (List.find?_some h2) (List.find?_eq_none.mp h1 e he)
  | some e =>
    cases h2 : l₂.find? (fun e => e.1 == k) with
    | none =>
      have he : e ∈ l₂ := hp.mem_iff.mp (List.mem_of_find?_eq_some h1)
      exact absurd (List.find?_some h1) (List.find?_eq_none.mp h2 e he)
    | some e' =>
      have he : e ∈ l₁ := List.mem_of_find?_eq_some h1
      have he' : e' ∈ l₁ := hp.mem_iff.mpr (List.mem_of_find?_eq_some h2)
      have hk : e.1 = k := by simpa using List.find?_some h1
      have hk' : e'.1 = k := by simpa using List.find?_some h2
      have : e = e' := List.inj_on_of_nodup_map hnd he he' (by rw [hk, hk'])
      rw [this]

/-- Dict lookup is invariant under permutation when keys are unique. -/
theorem dictGet_eq_of_perm {γ : Type} {l₁ l₂ : List (String × List γ)}
    (hp : l₁.Perm l₂) (hnd : (l₁.map Prod.fst).Nodup) (k : String) :
    dictGet l₁ k = dictGet l₂ k := by
  rw [dictGet_eq_find?, dictGet_eq_find?, find?_key_eq_of_perm hp hnd k]

/-- `sorted()` erases any difference in input order. -/
theorem sortStrings_eq_of_perm {l₁ l₂ : List String} (hp : l₁.Perm l₂) :
    sortStrings l₁ = sortStrings l₂ := by
  haveI : IsTotal String (fun a b : String => a ≤ b) := ⟨le_total⟩
  haveI : IsTrans String (fun a b : String => a ≤ b) := ⟨fun _ _ _ => le_trans⟩
  haveI : IsAntisymm String (fun a b : String => a ≤ b) := ⟨fun _ _ => le_antisymm⟩
  exact List.eq_of_perm_of_sorted
    ((List.perm_insertionSort _ l₁).trans (hp.trans (List.perm_insertionSort _ l₂).symm))
    (List.sorted_insertionSort _ l₁) (List.sorted_insertionSort _ l₂)

/-- Claim C4: the emitted texts do not depend on the iteration order of
the aggregation dictionaries: permuting the (unique-keyed) association
lists that model the Python dicts leaves the emitted implementation
tables, the switch, the enum declarations and the per-table value-tag
enums byte-for-byte unchanged, because every order-sensitive iteration
goes through `sorted(...)` (and Python dict iteration itself is
insertion-ordered, hence deterministic for identical input files). -/
theorem emission_deterministic
    (p₁ p₂ : List (String × List CoreEntry)) (q₁ q₂ : List (String × List RangeEntry))
    (hp : p₁.Perm p₂) (hpnd : (p₁.map Prod.fst).Nodup)
    (hq : q₁.Perm q₂) (hqnd : (q₁.map Prod.fst).Nodup) :
    emitCoreImpl p₁ = emitCoreImpl p₂ ∧ emitCoreHeader p₁ = emitCoreHeader p₂ ∧
    emitPropsEnumsHeader q₁ = emitPropsEnumsHeader q₂ := by
  have hkeys : sortStrings (dictKeys p₁) = sortStrings (dictKeys p₂) :=
    sortStrings_eq_of_perm (hp.map Prod.fst)
  have hget : ∀ k, dictGet p₁ k = dictGet p₂ k := dictGet_eq_of_perm hp hpnd
  have hqkeys : sortStrings (dictKeys q₁) = sortStrings (dictKeys q₂) :=
    sortStrings_eq_of_perm (hq.map Prod.fst)
  have hqget : ∀ k, dictGet q₁ k = dictGet q₂ k := dictGet_eq_of_perm hq hqnd
  refine ⟨?_, ?_, ?_⟩
  · simp only [emitCoreImpl, hkeys, hget]
  · simp only [emitCoreHeader, hkeys]
  · simp only [emitPropsEnumsHeader, hqkeys, hqget]

/-- Witness for `emission_deterministic` on two-entry dicts listed in
opposite insertion orders. -/
theorem emission_deterministic_witness :
    ([("Beta", [⟨1, 2, "b"⟩]), ("Alpha", [⟨3, 4, "a"⟩])] :
        List (String × List CoreEntry)).Perm
      [("Alpha", [⟨3, 4, "a"⟩]), ("Beta", [⟨1, 2, "b"⟩])] ∧
    (([("Beta", [⟨1, 2, "b"⟩]), ("Alpha", [⟨3, 4, "a"⟩])] :
        List (String × List CoreEntry)).map Prod.fst).Nodup ∧
    emitCoreImpl [("Beta", [⟨1, 2, "b"⟩]), ("Alpha", [⟨3, 4, "a"⟩])]
      = emitCoreImpl [("Alpha", [⟨3, 4, "a"⟩]), ("Beta", [⟨1, 2, "b"⟩])] ∧
    emitPropsEnumsHeader [("T", [⟨1, 2, "Y", "c"⟩, ⟨3, 4, "X", "d"⟩])]
      = emitPropsEnumsHeader [("T", [⟨1, 2, "Y", "c"⟩, ⟨3, 4, "X", "d"⟩])] :=
  ⟨by decide, by decide,
   (emission_deterministic [("Beta", [⟨1, 2, "b"⟩]), ("Alpha", [⟨3, 4, "a"⟩])]
     [("Alpha", [⟨3, 4, "a"⟩]), ("Beta", [⟨1, 2, "b"⟩])]
     [("T", [⟨1, 2, "Y", "c"⟩, ⟨3, 4, "X", "d"⟩])]
     [("T", [⟨1, 2, "Y", "c"⟩, ⟨3, 4, "X", "d"⟩])]
     (by decide) (by decide) (by decide) (by decide)).1,
   (emission_deterministic [("Beta", [⟨1, 2, "b"⟩]), ("Alpha", [⟨3, 4, "a"⟩])]
     [("Alpha", [⟨3, 4, "a"⟩]), ("Beta", [⟨1, 2, "b"⟩])]
     [("T", [⟨1, 2, "Y", "c"⟩, ⟨3, 4, "X", "d"⟩])]
     [("T", [⟨1, 2, "Y", "c"⟩, ⟨3, 4, "X", "d"⟩])]
     (by decide) (by decide) (by decide) (by decide)).2.2⟩

/-- The module docstring of mktables.py (lines 2-15), written verbatim at
the top of both artifacts by `file_header` via `globals()['__doc__']`. -/
def moduleDocstring : String :=
  "/**\n * This file is part of the \"libterminal\" project\n *   Copyright (c) 2020 Christian Parpart <christian@parpart.family>\n *\n * Licensed under the Apache License, Version 2.0 (the \"License\");\n * you may not use this file except in compliance with the License.\n *\n * Unless required by applicable law or agreed to in writing, software\n * distributed under the License is distributed on an \"AS IS\" BASIS,\n * WITHOUT WARRANTIES OR CONDITIONS OF ANY KIND, either express or implied.\n * See the License for the specific language governing permissions and\n * limitations under the License.\n */\n"

/-- Everything `file_header` writes to the header artifact (mktables.py
lines 53-62), before any input file is opened. -/
def headerPreamble : String :=
  moduleDocstring ++
  "#pragma once\n\n#include <array>\n#include <optional>\n#include <utility>\n\nnamespace crispy::text \x7b\n\n"

/-- Everything `file_header` writes to the implementation artifact
(mktables.py lines 64-127): the docstring, the includes, and the C++
source text of the two binary-search primitives. -/
def implPreamble : String :=
  moduleDocstring ++
  "\n#include <crispy/text/Unicode.h>\n\n#include <array>\n#include <optional>\n\nnamespace crispy::text \x7b\n\nnamespace \x7b\n    struct Interval\n    \x7b\n        char32_t from;\n        char32_t to;\n    \x7d;\n\n    template <size_t N>\n    constexpr bool contains(std::array<Interval, N> const& _ranges, char32_t _codepoint)\n    \x7b\n        int a = 0;\n        int b = _ranges.size() - 1;\n        while (a < b)\n        \x7b\n            auto const i = (b + a) / 2;\n            auto const& I = _ranges[i];\n            if (I.to < _codepoint)\n                a = i + 1;\n            else if (I.from > _codepoint)\n                b = i - 1;\n            else\n                return true;\n        \x7d\n        return a == b && _ranges[a].from <= _codepoint && _codepoint <= _ranges[a].to;\n    \x7d\n\n    template <typename T> struct Prop\n    \x7b\n        Interval interval;\n        T property;\n    \x7d;\n\n    template <typename T, size_t N>\n    constexpr std::optional<T> search(std::array<Prop<T>, N> const& _ranges, char32_t _codepoint)\n    \x7b\n        size_t a = 0;\n        size_t b = _ranges.size() - 1;\n        while (a < b)\n        \x7b\n            auto const i = (b + a) / 2;\n            auto const& I = _ranges[i];\n            if (I.interval.to < _codepoint)\n                a = i + 1;\n            else if (I.interval.from > _codepoint)\n                b = i - 1;\n            else\n                return I.property;\n        \x7d\n        if (a == b && _ranges[a].interval.from <= _codepoint && _codepoint <= _ranges[a].interval.to)\n            return _ranges[a].property;\n        return std::nullopt;\n    \x7d\n\x7d\n\n"

/-- The `WIDTH_NAMES` dict of `process_east_asian_width` (mktables.py
lines 420-427); `WIDTH_NAMES[token]` raises `KeyError` (`none`) for an
unknown token. -/
def WIDTH_NAMES : String → Option String
  | "A" => some "Ambiguous"
  | "F" => some "FullWidth"
  | "H" => some "HalfWidth"
  | "N" => some "Neutral"
  | "Na" => some "Narrow"
  | "W" => some "Wide"
  | _ => none

/-- `WIDTH_NAMES.values()` in the dict literal's (fixed) insertion
order. -/
def widthNamesValues : List String :=
  ["Ambiguous", "FullWidth", "HalfWidth", "Neutral", "Narrow", "Wide"]

/-- The row-emission loop of `process_east_asian_width` (mktables.py
lines 447-454): each row looks its token up in `WIDTH_NAMES`; on a
`KeyError` the rows written so far remain and the flag is false. -/
def emitEAWRows : List RangeEntry → String × Bool
  | [] => ("", true)
  | r :: rest =>
    match WIDTH_NAMES r.property with
    | none => ("", false)
    | some nm =>
      let t := emitEAWRows rest
      ("    Prop<crispy::text::EastAsianWidth>\x7b \x7b 0x" ++ hex4 r.start ++ ", 0x"
        ++ hex4 r.stop ++ " \x7d, crispy::text::EastAsianWidth::" ++ nm ++ " \x7d, // "
        ++ r.comment ++ "\n" ++ t.1, t.2)

/-- The generated `east_asian_width` accessor source text (mktables.py
lines 459-465). -/
def eawFunctionText : String :=
  "EastAsianWidth east_asian_width(char32_t _codepoint) noexcept \x7b\n" ++
  "    if (auto const p = search(tables::EastAsianWidth, _codepoint); p.has_value())\n" ++
  "        return p.value();\n" ++
  "    return EastAsianWidth::Neutral;\n" ++
  "\x7d\n"

/-- `process_east_asian_width` (mktables.py lines 419-467) minus the file
`open`: the header enum and signature are written before the
implementation table, so a `KeyError` on an unknown width token leaves
the header text and the table prefix written and aborts (flag false). -/
def processEastAsianWidth (lines : List (List Char)) : (String × String) × Bool :=
  let table := collect_range_table_with_prop lines
  let headerText :=
    "enum class EastAsianWidth \x7b\n" ++
    String.join (widthNamesValues.map (fun v => "    " ++ v ++ ",\n")) ++
    "\x7d;\n\n" ++
    "EastAsianWidth east_asian_width(char32_t _codepoint) noexcept;\n\n"
  let rows := emitEAWRows table
  let implPrefix :=
    "namespace tables \x7b\n" ++
    "auto constexpr EastAsianWidth = std::array\x7b // \x7b\x7b\x7b\n" ++ rows.1
  if rows.2 then
    ((headerText,
      implPrefix ++ "\x7d; // \x7d\x7d\x7d\n" ++ "\x7d // end namespace tables\n\n"
        ++ eawFunctionText), true)
  else
    ((headerText, implPrefix), false)

/-- The two output file handles of `UCDGenerator` (opened with mode `'w'`
in `__init__`, so both artifacts start empty). -/
structure GenState where
  header : String
  impl : String
deriving Repr, DecidableEq

/-- One `process_*` call inside `generate`: if a previous step already
aborted, nothing more is written; if the input file is missing, `open`
raises and the run aborts with the output written so far; otherwise the
processor's texts are appended and its success flag is propagated. -/
def runFile (st : GenState × Bool) (file : Option (List (List Char)))
    (proc : List (List Char) → (String × String) × Bool) : GenState × Bool :=
  match st with
  | (s, false) => (s, false)
  | (s, true) =>
    match file with
    | none => (s, false)
    | some lines =>
      let r := proc lines
      (⟨s.header ++ r.1.1, s.impl ++ r.1.2⟩, r.2)

/-- `self.process_core_props()` as a `runFile` step (cannot itself
fail). -/
def procCore (ls : List (List Char)) : (String × String) × Bool :=
  (processCoreProps ls, true)

/-- `self.process_derived_general_category()` as a `runFile` step
(`KeyError` during collection aborts with nothing written). -/
def procDGC (ls : List (List Char)) : (String × String) × Bool :=
  match processDerivedGeneralCategory ls with
  | some hi => (hi, true)
  | none => (("", ""), false)

/-- `self.process_grapheme_break_props()` (mktables.py lines 268-269):
`process_props(GRAPHEME_BREAK_PROPS_FILE, 'Property')` as a `runFile`
step. -/
def procGBP (ls : List (List Char)) : (String × String) × Bool :=
  match processPropsFile "Property".data ls with
  | some hi => (hi, true)
  | none => (("", ""), false)

/-- `self.process_emoji_props()` as a `runFile` step (cannot fail). -/
def procEmoji (ls : List (List Char)) : (String × String) × Bool :=
  (processEmojiProps ls, true)

/-- `UCDGenerator.generate` (mktables.py lines 42-50): `file_header`
writes the preambles first, then the five input files are processed in
order (core properties, derived general category, grapheme break
properties, East Asian width, emoji), then `file_footer` closes the
namespaces.  Each argument is the content of one configured input file,
`none` if that file is missing/unreadable. -/
def generateRun (fCore fDGC fGBP fEAW fEmoji : Option (List (List Char))) :
    GenState × Bool :=
  match runFile (runFile (runFile (runFile (runFile
      (⟨⟨headerPreamble, implPreamble⟩, true⟩ : GenState × Bool)
      fCore procCore) fDGC procDGC) fGBP procGBP) fEAW processEastAsianWidth)
      fEmoji procEmoji with
  | (s, true) =>
    (⟨s.header ++ "\x7d // end namespace\n", s.impl ++ "\x7d // end namespace\n"⟩, true)
  | (s, false) => (s, false)

theorem runFile_true {st : GenState × Bool} {f : Option (List (List Char))}
    {p : List (List Char) → (String × String) × Bool}
    (h : (runFile st f p).2 = true) : st.2 = true ∧ f.isSome := by
  match st with
  | (s, false) => simp [runFile] at h
  | (s, true) =>
    match f with
    | none => simp [runFile] at h
    | some ls => exact ⟨rfl, rfl⟩

theorem runFile_extends (st : GenState × Bool) (f : Option (List (List Char)))
    (p : List (List Char) → (String × String) × Bool) :
    ∃ x y, (runFile st f p).1.header = st.1.header ++ x ∧
      (runFile st f p).1.impl = st.1.impl ++ y := by
  match st with
  | (s, false) =>
    exact ⟨"", "", by simp [runFile], by simp [runFile]⟩
  | (s, true) =>
    match f with
    | none => exact ⟨"", "", by simp [runFile], by simp [runFile]⟩
    | some ls => exact ⟨(p ls).1.1, (p ls).1.2, rfl, rfl⟩

theorem extendsPre_runFile {st : GenState × Bool}
    (h : ∃ x y, st.1.header = headerPreamble ++ x ∧ st.1.impl = implPreamble ++ y)
    (f : Option (List (List Char))) (p : List (List Char) → (String × String) × Bool) :
    ∃ x y, (runFile st f p).1.header = headerPreamble ++ x ∧
      (runFile st f p).1.impl = implPreamble ++ y := by
  obtain ⟨x, y, hx, hy⟩ := h
  obtain ⟨x', y', hx', hy'⟩ := runFile_extends st f p
  exact ⟨x ++ x', y ++ y',
    by rw [hx', hx, String.append_assoc],
    by rw [hy', hy, String.append_assoc]⟩

/-- A completed run implies every input file was present. -/
theorem generateRun_files_present (a b c d e : Option (List (List Char)))
    (h : (generateRun a b c d e).2 = true) :
    a.isSome ∧ b.isSome ∧ c.isSome ∧ d.isSome ∧ e.isSome := by
  unfold generateRun at h
  split at h
  next s heq =>
    have h5 := runFile_true (congrArg Prod.snd heq)
    have h4 := runFile_true h5.1
    have h3 := runFile_true h4.1
    have h2 := runFile_true h3.1
    have h1 := runFile_true h2.1
    exact ⟨h1.2, h2.2, h3.2, h4.2, h5.2⟩
  next => exact absurd h (by simp)

/-- The result of any run extends both preambles. -/
theorem generateRun_preamble (a b c d e : Option (List (List Char))) :
    ∃ x y, (generateRun a b c d e).1.header = headerPreamble ++ x ∧
      (generateRun a b c d e).1.impl = implPreamble ++ y := by
  have h0 : ∃ x y, ((⟨⟨headerPreamble, implPreamble⟩, true⟩ : GenState × Bool)).1.header
      = headerPreamble ++ x ∧
      ((⟨⟨headerPreamble, implPreamble⟩, true⟩ : GenState × Bool)).1.impl
      = implPreamble ++ y :=
    ⟨"", "", by simp, by simp⟩
  have h5 := extendsPre_runFile (extendsPre_runFile (extendsPre_runFile
    (extendsPre_runFile (extendsPre_runFile h0 a procCore) b procDGC) c procGBP)
    d processEastAsianWidth) e procEmoji
  unfold generateRun
  split
  next s heq =>
    obtain ⟨x, y, hx, hy⟩ := h5
    rw [heq] at hx hy
    refine ⟨x ++ "\x7d // end namespace\n", y ++ "\x7d // end namespace\n", ?_, ?_⟩
    · show s.header ++ _ = _
      rw [show s.header = headerPreamble ++ x from hx, String.append_assoc]
    · show s.impl ++ _ = _
      rw [show s.impl = implPreamble ++ y from hy, String.append_assoc]
  next s heq =>
    obtain ⟨x, y, hx, hy⟩ := h5
    rw [heq] at hx hy
    exact ⟨x, y, hx, hy⟩

/-- Claim C6 (counterexample): with the very first configured input file
(DerivedCoreProperties.txt) missing, generation aborts, but the artifacts
are not empty: `file_header` has already written the full preamble
(docstring, includes, namespace opening and — in the implementation —
the two binary-search primitives) to both files before the first `open`
is attempted. -/
theorem missing_file_leaves_partial_output :
    (generateRun none none none none none).2 = false ∧
    (generateRun none none none none none).1.header = headerPreamble ∧
    (generateRun none none none none none).1.impl = implPreamble ∧
    headerPreamble ≠ "" ∧ implPreamble ≠ "" := by
  refine ⟨rfl, rfl, rfl, by decide, by decide⟩

/-- Claim C6 (amended): if any configured input file is missing the run
aborts (never reaches the footer, result flag false), but partial output
remains: both artifacts already contain their complete preambles, and
whatever tables were emitted for files processed before the failure. -/
theorem missing_file_aborts_after_preamble
    (a b c d e : Option (List (List Char)))
    (hmiss : a = none ∨ b = none ∨ c = none ∨ d = none ∨ e = none) :
    (generateRun a b c d e).2 = false ∧
    (∃ x, (generateRun a b c d e).1.header = headerPreamble ++ x) ∧
    (∃ y, (generateRun a b c d e).1.impl = implPreamble ++ y) := by
  obtain ⟨x, y, hx, hy⟩ := generateRun_preamble a b c d e
  refine ⟨?_, ⟨x, hx⟩, ⟨y, hy⟩⟩
  cases hres : (generateRun a b c d e).2 with
  | false => rfl
  | true =>
    have hall := generateRun_files_present a b c d e hres
    rcases hmiss with h | h | h | h | h <;> rw [h] at hall <;> simp at hall

/-- Witness for `missing_file_aborts_after_preamble`: the grapheme-break
file is missing while the files before it are present but empty. -/
theorem missing_file_aborts_after_preamble_witness :
    ((some [] : Option (List (List Char))) = none ∨ (some [] : Option (List (List Char))) = none ∨
      (none : Option (List (List Char))) = none ∨ (some [] : Option (List (List Char))) = none ∨
      (some [] : Option (List (List Char))) = none) ∧
    (generateRun (some []) (some []) none (some []) (some [])).2 = false ∧
    (∃ x, (generateRun (some []) (some []) none (some []) (some [])).1.header
      = headerPreamble ++ x) ∧
    (∃ y, (generateRun (some []) (some []) none (some []) (some [])).1.impl
      = implPreamble ++ y) :=
  ⟨Or.inr (Or.inr (Or.inl rfl)),
   (missing_file_aborts_after_preamble (some []) (some []) none (some []) (some [])
     (Or.inr (Or.inr (Or.inl rfl)))).1,
   (missing_file_aborts_after_preamble (some []) (some []) none (some []) (some [])
     (Or.inr (Or.inr (Or.inl rfl)))).2.1,
   (missing_file_aborts_after_preamble (some []) (some []) none (some []) (some [])
     (Or.inr (Or.inr (Or.inl rfl)))).2.2⟩

/-- The generated C++ `enum class EastAsianWidth` (values from
`WIDTH_NAMES`). -/
inductive EastAsianWidth where
  | Ambiguous
  | FullWidth
  | HalfWidth
  | Neutral
  | Narrow
  | Wide
deriving Repr, DecidableEq

/-- Semantics of the emitted `east_asian_width` accessor (the text
`eawFunctionText`, mktables.py lines 459-465): call `search`; if it found
a value return it, otherwise return `EastAsianWidth::Neutral` — the line
the generator itself marks `# XXX default`.  The outer `Option` is the
undefined-behaviour marker threaded through from `search`. -/
def east_asian_width (table : List (Prop' EastAsianWidth)) (cp : Nat) :
    Option EastAsianWidth :=
  (searchImpl table cp).map (fun p => p.getD EastAsianWidth.Neutral)

/-- Claim C7 (counterexample): on a table whose single interval is
`[0x41, 0x5A]`, querying `0x5B` finds no containing interval (`search`
returns `std::nullopt`), yet the emitted accessor returns the substitute
default tag `EastAsianWidth::Neutral` instead of an explicit no-match —
its return type is plain `EastAsianWidth`, not an optional. -/
theorem east_asian_width_substitutes_default :
    searchImpl [Prop'.mk ⟨65, 90⟩ EastAsianWidth.Wide] 91 = some none ∧
    east_asian_width [Prop'.mk ⟨65, 90⟩ EastAsianWidth.Wide] 91
      = some EastAsianWidth.Neutral := by
  refine ⟨by decide, by decide⟩

/-- Claim C7 (amended): the emitted `east_asian_width` accessor returns
the tag found by `search` when one interval contains the query, but when
`search` reports no match it substitutes the default tag
`EastAsianWidth::Neutral` rather than returning an explicit no-match. -/
theorem east_asian_width_amended (table : List (Prop' EastAsianWidth)) (cp : Nat) :
    (∀ v, searchImpl table cp = some (some v) → east_asian_width table cp = some v) ∧
    (searchImpl table cp = some none →
      east_asian_width table cp = some EastAsianWidth.Neutral) := by
  constructor
  · intro v h
    simp [east_asian_width, h]
  · intro h
    simp [east_asian_width, h]

/-- Witness for `east_asian_width_amended` on a one-entry table: a hit at
0x46 and a miss at 0x20. -/
theorem east_asian_width_amended_witness :
    searchImpl [Prop'.mk ⟨65, 90⟩ EastAsianWidth.Wide] 70
      = some (some EastAsianWidth.Wide) ∧
    east_asian_width [Prop'.mk ⟨65, 90⟩ EastAsianWidth.Wide] 70
      = some EastAsianWidth.Wide ∧
    searchImpl [Prop'.mk ⟨65, 90⟩ EastAsianWidth.Wide] 32 = some none ∧
    east_asian_width [Prop'.mk ⟨65, 90⟩ EastAsianWidth.Wide] 32
      = some EastAsianWidth.Neutral :=
  ⟨by decide,
   (east_asian_width_amended [Prop'.mk ⟨65, 90⟩ EastAsianWidth.Wide] 70).1
     EastAsianWidth.Wide (by decide),
   by decide,
   (east_asian_width_amended [Prop'.mk ⟨65, 90⟩ EastAsianWidth.Wide] 32).2 (by decide)⟩

/-- Key invariant of the `contains` loop: starting from `0 ≤ a` and
`b ≤ length - 1` with enough fuel, every array access is in bounds and
the loop terminates, so the modelled function returns a value. -/
theorem containsGo_isSome (ranges : List Interval) (cp : Nat) :
    ∀ (fuel : Nat) (a b : Int), (b - a).toNat < fuel → 0 ≤ a →
      b ≤ (ranges.length : Int) - 1 → (containsGo ranges cp a b fuel).isSome := by
  intro fuel
  induction fuel with
  | zero => intro a b hf _ _; omega
  | succ n ih =>
    intro a b hf ha hb
    rw [containsGo]
    by_cases hab : a < b
    · simp only [if_pos hab]
      have hi : a ≤ (b + a) / 2 ∧ (b + a) / 2 < b := by omega
      have hacc : ((b + a) / 2).toNat < ranges.length := by omega
      have hsome : getI ranges ((b + a) / 2) = some (ranges[((b + a) / 2).toNat]) := by
        simp [getI, List.getElem?_eq_getElem hacc]
        omega
      rw [hsome]
      by_cases h1 : (ranges[((b + a) / 2).toNat]).toCp < cp
      · simp only [if_pos h1]
        exact ih ((b + a) / 2 + 1) b (by omega) (by omega) hb
      · simp only [if_neg h1]
        by_cases h2 : cp < (ranges[((b + a) / 2).toNat]).fromCp
        · simp only [if_pos h2]
          exact ih a ((b + a) / 2 - 1) (by omega) ha (by omega)
        · simp [h2]
    · simp only [if_neg hab]
      by_cases heq : a = b
      · have hlen : a.toNat < ranges.length := by omega
        have hsome : getI ranges a = some (ranges[a.toNat]) := by
          simp [getI, List.getElem?_eq_getElem hlen]
          omega
        simp [heq, hsome] at hsome ⊢
        rw [hsome]
        simp
      · simp [heq]

/-- Claim C9: the emitted boolean `contains` is total — for every interval
array (any size, including zero) and every query codepoint, every array
index it evaluates lies inside the array (the final membership check
short-circuits on `a == b` before indexing), the loop terminates, and a
boolean is returned.  In the model, any out-of-bounds access or
non-termination would surface as `none`. -/
theorem contains_total_in_bounds (ranges : List Interval) (cp : Nat) :
    (containsImpl ranges cp).isSome := by
  apply containsGo_isSome
  · omega
  · omega
  · omega

/-- Claim C1 (failing input): the value-returning `search` does not agree
with the linear scan on every sorted pairwise-disjoint table.  On the
two-entry table `[{5,6} -> 0, {10,12} -> 1]` with query 3 (below the first
interval), the linear scan cleanly reports no match, but `search` reaches
`i = 0`, takes the `b = i - 1` branch, wraps `b` to `2^64 - 1` in
`size_t`, and then reads `_ranges[2^63 - 1]` out of bounds (undefined
behaviour, `none` in the model).  The boolean `contains` on the same
shape is fine (see `search_unsigned_wraparound`). -/
theorem search_diverges_from_linear_scan :
    sortedDisjoint [Prop'.mk ⟨5, 6⟩ (0 : Nat), Prop'.mk ⟨10, 12⟩ 1] = true ∧
    linearSearch [Prop'.mk ⟨5, 6⟩ (0 : Nat), Prop'.mk ⟨10, 12⟩ 1] 3 = none ∧
    searchImpl [Prop'.mk ⟨5, 6⟩ (0 : Nat), Prop'.mk ⟨10, 12⟩ 1] 3 = none := by
  refine ⟨by decide, by decide, by decide⟩

/-- Claim C2 (failing input): on an empty table the boolean `contains`
returns false without error (its signed `int b` is initialised to `-1`,
the loop is skipped and `a == b` short-circuits the index), but `search`
initialises its unsigned `size_t b` to `2^64 - 1`, enters the loop, and
reads `_ranges[2^63 - 1]` out of bounds (undefined behaviour, `none` in
the model) instead of returning `std::nullopt`. -/
theorem empty_table_search_out_of_bounds :
    containsImpl [] 0 = some false ∧
    searchImpl ([] : List (Prop' Nat)) 0 = none := by
  refine ⟨by decide, by decide⟩

/-- Claim C3 (failing input): only the boolean `contains` keeps its
indices in a signed type (`int`); `search` uses unsigned `size_t`.  On
the table `[{100,200} -> 0, {300,400} -> 1]` with query 7, both variants
reach `mid = 0` and update `hi = mid - 1`: in `contains` the signed `b`
becomes `-1`, the loop condition `a < b` fails and the result is `false`;
in `search` the unsigned `b` wraps to `2^64 - 1`, the loop condition
`a < b` stays true and the next iteration reads `_ranges[2^63 - 1]` out
of bounds (undefined behaviour, `none` in the model). -/
theorem search_unsigned_wraparound :
    containsImpl [⟨100, 200⟩, ⟨300, 400⟩] 7 = some false ∧
    searchImpl [Prop'.mk ⟨100, 200⟩ (0 : Nat), Prop'.mk ⟨300, 400⟩ 1] 7 = none := by
  refine ⟨by decide, by decide⟩

end Mktables
